import Mathlib

/-!
Verification of the LTSV (Labeled Tab-Separated Values) reader/writer
(`src/ltsv.rs`).  The parser is a one-byte-lookahead recursive-descent
state machine over a byte source; the serializer writes records back as
`label:value` fields joined by tabs, one record per line.

The byte source together with the parser's one-byte lookahead cell is
embedded as the list of bytes not yet committed: the head of the list
plays the role of the `cur` cell (`read_byte` returns `-1` at end of
stream, which corresponds to the empty list), and `bump` drops the head.
Strings produced by the parser are kept as raw byte lists.
`str::from_bytes` asserts `str::is_utf8` and aborts the task when the
accumulated bytes are not valid UTF-8; every parser entry point therefore
returns an `Option`, `none` modeling that abort, with the `is_utf8` guard
placed at each `from_bytes` call site of the source (the successful exit
of the label scanner and every terminator exit of the value scanner,
before `consume_forward_LF` in the CR case).  The two scanner loops (`parse_field_label`, `parse_field_value`)
and the whitespace skipper recurse structurally on the stream; the outer
loops (`parse_record`, `parse_ltsv`, `each_ltsv_record`,
`each_ltsv_field`) are embedded with explicit fuel, instantiated by the
wrappers with more fuel than the stream length, which is proved
sufficient (see `parse_field_ok`, `parse_record_go_len`).
-/

namespace Ltsv

/-- `Record` from the source: `LinearMap<~str, ~str>`, embedded as an
association list of (label bytes, value bytes) pairs whose insert
operation replaces the value of an existing key in place. -/
abbrev Record := List (List Nat × List Nat)

/-- The `ParseType` enum of the source. -/
inductive ParseType where
  | FieldLabel
  | FieldValue
  | Field
  | Record
  | Ltsv
deriving DecidableEq, Repr

/-- The `ParseDelimiter` enum of the source. -/
inductive ParseDelimiter where
  | EOF
  | TAB
  | NL
  | MISC
deriving DecidableEq, Repr

/-- The `ParseResult<T>` enum of the source. -/
inductive ParseResult (α : Type) where
  | ParseError (reason : String)
  | ParseOk (ty : ParseType) (delim : ParseDelimiter) (val : α)
deriving DecidableEq, Repr

instance : DecidableEq (ParseResult (List Nat) × List Nat) := instDecidableEqProd

instance : DecidableEq (ParseResult (List Nat × List Nat) × List Nat) := instDecidableEqProd

instance : DecidableEq (ParseResult Record × List Nat) := instDecidableEqProd

instance : DecidableEq (ParseResult (List Record) × List Nat) := instDecidableEqProd

/-- Label bytes, from the match arms of `parse_field_label`:
`0x30..0x39 | 0x41..0x5a | 0x61..0x7a | 0x5f | 0x2e | 0x2d`. -/
def isLabelByteN (b : Nat) : Bool :=
  (0x30 ≤ b && b ≤ 0x39) || (0x41 ≤ b && b ≤ 0x5a) || (0x61 ≤ b && b ≤ 0x7a) ||
  b == 0x5f || b == 0x2e || b == 0x2d

/-- Value bytes, from the match arms of `parse_field_value`:
`0x01..0x08 | 0x0b | 0x0c | 0x0e..0xff`. -/
def isValueByteN (b : Nat) : Bool :=
  (0x01 ≤ b && b ≤ 0x08) || b == 0x0b || b == 0x0c || (0x0e ≤ b && b ≤ 0xff)

/-- `char::is_whitespace(*self.cur as char)` restricted to byte values:
the Unicode white-space code points below 0x100. -/
def isWsByte (b : Nat) : Bool :=
  b == 0x09 || b == 0x0a || b == 0x0b || b == 0x0c || b == 0x0d ||
  b == 0x20 || b == 0x85 || b == 0xa0

/-- `utf8_char_width` from the `str` module of the source era's standard
library: the expected length of the UTF-8 sequence headed by byte `b`
(0 for a byte that cannot head a sequence). -/
def utf8_char_width (b : Nat) : Nat :=
  if b ≤ 0x7f then 1
  else if b ≤ 0xbf then 0
  else if b ≤ 0xdf then 2
  else if b ≤ 0xef then 3
  else if b ≤ 0xf7 then 4
  else if b ≤ 0xfb then 5
  else if b ≤ 0xfd then 6
  else 0

/-- The loop of `str::is_utf8`: `pending` counts the continuation bytes
still owed by the current sequence (a continuation byte satisfies
`b & 192 == tag_cont_u8`, i.e. `0x80 ≤ b ≤ 0xbf`); a head byte of width
zero fails, and running out of input with a sequence open fails the
bounds check of the source. -/
def is_utf8_go : List Nat → Nat → Bool
  | [], pending => pending == 0
  | b :: rest, 0 =>
    if utf8_char_width b = 0 then false
    else is_utf8_go rest (utf8_char_width b - 1)
  | b :: rest, pending + 1 =>
    if 0x80 ≤ b && b ≤ 0xbf then is_utf8_go rest pending else false

/-- `str::is_utf8` of the source era's standard library; `str::from_bytes`
asserts it and aborts the task when it fails. -/
def is_utf8 (s : List Nat) : Bool := is_utf8_go s 0

/-- The lookahead cell `*self.cur`: the next uncommitted byte, or `-1`
at end of stream. -/
def cur (s : List Nat) : Int :=
  match s with
  | [] => -1
  | b :: _ => (b : Int)

/-- `eof`: `*self.cur == -1`. -/
def eofP (s : List Nat) : Bool := s.isEmpty

/-- `bump`: commit the current byte and read one more (no-op at end of
stream, where `tail [] = []`). -/
def bump (s : List Nat) : List Nat := s.tail

/-- `consume_forward_LF`: after seeing CR, bump and demand LF. -/
def consume_forward_LF (s : List Nat) (rv : List Nat) :
    ParseResult (List Nat) × List Nat :=
  let s1 := bump s
  if cur s1 ≠ 0x0a then (.ParseError "CR detected, but not provided with LF", s1)
  else (.ParseOk .FieldValue .NL rv, s1)

/-- `parse_field_label`: scan label bytes until `:`; empty label, end of
stream, and any other byte are errors.  `bytes` is the accumulator.  The
successful exit converts with `str::from_bytes`, whose `is_utf8` assert
aborts the task (modeled `none`) on invalid UTF-8. -/
def parse_field_label (s : List Nat) (bytes : List Nat) :
    Option (ParseResult (List Nat) × List Nat) :=
  match s with
  | [] => some (.ParseError "EOF while parsing field label", [])
  | b :: rest =>
    if isLabelByteN b then parse_field_label rest (bytes ++ [b])
    else if b = 0x3a then
      if bytes.isEmpty then some (.ParseError "label is empty", b :: rest)
      else if is_utf8 bytes then some (.ParseOk .FieldLabel .MISC bytes, b :: rest)
      else none
    else some (.ParseError "invalid byte detected", b :: rest)

/-- `parse_field_value`: scan value bytes until a terminator
(TAB / LF / CR-plus-LF / end of stream); any other byte is an error.
Each terminator exit converts the accumulated bytes with
`str::from_bytes` — in the CR case before calling `consume_forward_LF` —
so each carries the `is_utf8` guard, aborting (modeled `none`) on
invalid UTF-8. -/
def parse_field_value (s : List Nat) (bytes : List Nat) :
    Option (ParseResult (List Nat) × List Nat) :=
  match s with
  | [] => if is_utf8 bytes then some (.ParseOk .FieldValue .EOF bytes, []) else none
  | b :: rest =>
    if isValueByteN b then parse_field_value rest (bytes ++ [b])
    else if b = 0x0d then
      if is_utf8 bytes then some (consume_forward_LF (b :: rest) bytes) else none
    else if b = 0x0a then
      if is_utf8 bytes then some (.ParseOk .FieldValue .NL bytes, b :: rest) else none
    else if b = 0x09 then
      if is_utf8 bytes then some (.ParseOk .FieldValue .TAB bytes, b :: rest) else none
    else some (.ParseError "invalid byte detected", b :: rest)

/-- `skip_whitespaces`: bump while the current byte is whitespace. -/
def skip_whitespaces (s : List Nat) : List Nat :=
  match s with
  | [] => []
  | b :: rest => if isWsByte b then skip_whitespaces rest else b :: rest

/-- `parse_field`: skip leading whitespace, parse a label, bump past the
colon, parse a value, bump past the terminator; skip trailing whitespace
unless the terminator was TAB; re-check end of stream. -/
def parse_field (s : List Nat) :
    Option (ParseResult (List Nat × List Nat) × List Nat) :=
  let s0 := skip_whitespaces s
  match parse_field_label s0 [] with
  | none => none
  | some (.ParseError r, s1) => some (.ParseError r, s1)
  | some (.ParseOk _ _ label, s1) =>
    let s2 := bump s1
    match parse_field_value s2 [] with
    | none => none
    | some (.ParseError r, s3) => some (.ParseError r, s3)
    | some (.ParseOk _ delim value, s3) =>
      let s4 := bump s3
      let s5 := if delim ≠ .TAB then skip_whitespaces s4 else s4
      let delim2 := if eofP s5 then ParseDelimiter.EOF else delim
      some (.ParseOk .Field delim2 (label, value), s5)

/-- `LinearMap::insert`: replace the value of an existing key, otherwise
add the binding. -/
def insertRec (r : Record) (k v : List Nat) : Record :=
  if r.any (fun f => f.1 = k) then r.map (fun f => if f.1 = k then (k, v) else f)
  else r ++ [(k, v)]

/-- The loop of `parse_record`, with explicit fuel: parse fields,
inserting each into the record, until a field reports a delimiter other
than TAB. -/
def parse_record_go (fuel : Nat) (s : List Nat) (record : Record) :
    Option (ParseResult Record × List Nat) :=
  match fuel with
  | 0 => some (.ParseError "out of fuel", s)
  | fuel + 1 =>
    match parse_field s with
    | none => none
    | some (.ParseError r, s1) => some (.ParseError r, s1)
    | some (.ParseOk _ d (l, v), s1) =>
      if d = .TAB then parse_record_go fuel s1 (insertRec record l v)
      else some (.ParseOk .Record d (insertRec record l v), s1)

/-- `parse_record`: each successful `parse_field` consumes at least one
byte, so `length + 1` fuel never runs out (`parse_record_go_len`). -/
def parse_record (s : List Nat) : Option (ParseResult Record × List Nat) :=
  parse_record_go (s.length + 1) s []

/-- The loop of `parse_ltsv`, with explicit fuel: parse records until
one reports the EOF delimiter. -/
def parse_ltsv_go (fuel : Nat) (s : List Nat) (records : List Record) :
    Option (ParseResult (List Record) × List Nat) :=
  match fuel with
  | 0 => some (.ParseError "out of fuel", s)
  | fuel + 1 =>
    match parse_record s with
    | none => none
    | some (.ParseError r, s1) => some (.ParseError r, s1)
    | some (.ParseOk _ d record, s1) =>
      if d = .EOF then some (.ParseOk .Ltsv .EOF (records ++ [record]), s1)
      else parse_ltsv_go fuel s1 (records ++ [record])

/-- `parse_ltsv`: each successful `parse_record` consumes at least one
byte, so `length + 1` fuel never runs out. -/
def parse_ltsv (s : List Nat) : Option (ParseResult (List Record) × List Nat) :=
  parse_ltsv_go (s.length + 1) s []

/-- `read_ltsv` from the `LTSVReader` impl: run `parse_ltsv` on the
byte source; `fail!(reason)` is embedded as `Except.error reason`, and
an abort inside `str::from_bytes` propagates as `none`. -/
def read_ltsv (input : List Nat) : Option (Except String (List Record)) :=
  match parse_ltsv input with
  | none => none
  | some (.ParseError r, _) => some (.error r)
  | some (.ParseOk _ _ records, _) => some (.ok records)

/-- The loop of `each_ltsv_record`, with explicit fuel.  The returned
list collects the records passed to the visitor `f`; `f` returning
`false` stops the iteration after the current record. -/
def each_ltsv_record_go (fuel : Nat) (f : Record → Bool) (s : List Nat)
    (visited : List Record) : Option (Except String (List Record)) :=
  match fuel with
  | 0 => some (.error "out of fuel")
  | fuel + 1 =>
    if eofP s then some (.ok visited)
    else
      match parse_record s with
      | none => none
      | some (.ParseError r, _) => some (.error r)
      | some (.ParseOk _ _ record, s1) =>
        if f record then each_ltsv_record_go fuel f s1 (visited ++ [record])
        else some (.ok (visited ++ [record]))

/-- `each_ltsv_record` from the `LTSVReader` impl: lazily parse one
record at a time while not at end of stream, invoking the visitor. -/
def each_ltsv_record (f : Record → Bool) (input : List Nat) :
    Option (Except String (List Record)) :=
  each_ltsv_record_go (input.length + 1) f input []

/-- The loop of `each_ltsv_field`, with explicit fuel. -/
def each_ltsv_field_go (fuel : Nat) (f : List Nat × List Nat → Bool)
    (s : List Nat) (visited : List (List Nat × List Nat)) :
    Option (Except String (List (List Nat × List Nat))) :=
  match fuel with
  | 0 => some (.error "out of fuel")
  | fuel + 1 =>
    if eofP s then some (.ok visited)
    else
      match parse_field s with
      | none => none
      | some (.ParseError r, _) => some (.error r)
      | some (.ParseOk _ _ field, s1) =>
        if f field then each_ltsv_field_go fuel f s1 (visited ++ [field])
        else some (.ok (visited ++ [field]))

/-- `each_ltsv_field` from the `LTSVReader` impl: lazily parse one field
at a time while not at end of stream, invoking the visitor. -/
def each_ltsv_field (f : List Nat × List Nat → Bool) (input : List Nat) :
    Option (Except String (List (List Nat × List Nat))) :=
  each_ltsv_field_go (input.length + 1) f input []

/-- `write_ltsv_record` from the `LTSVWriter` impl: each field as
`label:value`, preceded by a tab unless it is the first field. -/
def write_ltsv_record (record : Record) : List Nat :=
  (record.foldl
    (fun acc f =>
      (acc.1 ++ (if acc.2 then [] else [0x09]) ++ f.1 ++ 0x3a :: f.2, false))
    ([], true)).1

/-- `write_ltsv` from the `LTSVWriter` impl: each record followed by a
newline. -/
def write_ltsv (ltsv : List Record) : List Nat :=
  ltsv.foldl (fun acc record => acc ++ write_ltsv_record record ++ [0x0a]) []

/-- A well-formed label: non-empty, every byte in the label class. -/
def wfLabel (k : List Nat) : Prop := k ≠ [] ∧ ∀ b ∈ k, isLabelByteN b = true

/-- A well-formed value: every byte in the value class (in particular no
NUL, TAB, LF or CR) and valid UTF-8, as the `str::from_bytes` conversion
of the parser demands. -/
def wfValue (v : List Nat) : Prop :=
  (∀ b ∈ v, isValueByteN b = true) ∧ is_utf8 v = true

/-- The labels of a record, in iteration order. -/
def keys (r : Record) : List (List Nat) := r.map Prod.fst

/-- Every field of the record is well formed. -/
def WfFields (r : Record) : Prop := ∀ f ∈ r, wfLabel f.1 ∧ wfValue f.2

/-- A record as the parser produces it: non-empty, labels unique,
fields well formed. -/
def WfRecord (r : Record) : Prop := r ≠ [] ∧ (keys r).Nodup ∧ WfFields r

/-- Insert a list of fields into a record, left to right. -/
def foldIns (racc : Record) (fs : Record) : Record :=
  fs.foldl (fun a f => insertRec a f.1 f.2) racc

/-- Look a label up in a record (first matching field). -/
def lookupRec : Record → List Nat → Option (List Nat)
  | [], _ => none
  | f :: fs, k => if f.1 = k then some f.2 else lookupRec fs k

/-- The value of the last field carrying label `k` in a field list. -/
def lastVal (fs : Record) (k : List Nat) : Option (List Nat) :=
  fs.foldl (fun o f => if f.1 = k then some f.2 else o) none

/-- One line's fields in wire form: `label:value` joined by single TABs,
no leading or trailing delimiter. -/
def renderFields : Record → List Nat
  | [] => []
  | [f] => f.1 ++ 0x3a :: f.2
  | f :: fs => f.1 ++ 0x3a :: f.2 ++ 0x09 :: renderFields fs

/-- A document in wire form: records joined by LF; `trail` says whether
the last record is also LF-terminated. -/
def renderDocs : List Record → Bool → List Nat
  | [], _ => []
  | [r], trail => renderFields r ++ (if trail then [0x0a] else [])
  | r :: rs, trail => renderFields r ++ 0x0a :: renderDocs rs trail

/-- Fields rendered with a leading TAB each (helper for the writer
fold). -/
def tabJoin : Record → List Nat
  | [] => []
  | f :: fs => 0x09 :: f.1 ++ 0x3a :: f.2 ++ tabJoin fs

/-- Records rendered with a trailing LF each (helper for the writer
fold). -/
def lfJoin : List Record → List Nat
  | [] => []
  | r :: rs => renderFields r ++ 0x0a :: lfJoin rs

/-- A stream that is either exhausted or positioned on a label byte
(after a record boundary in rendered input). -/
def LabelHead (s : List Nat) : Prop :=
  s = [] ∨ ∃ b t, s = b :: t ∧ isLabelByteN b = true

/-- Fields as the wire grammar of the specification constrains them: a
non-empty label over the label byte class and a value over the value
byte class (the grammar itself places no encoding constraint on
values). -/
def SpecFields (r : Record) : Prop :=
  ∀ f ∈ r, wfLabel f.1 ∧ ∀ b ∈ f.2, isValueByteN b = true

/-- Wire-format grammar of the specification, stated as a second
definition to compare with the parser: `document := record*`;
`record := field (TAB field)* (LF | CRLF)` with the last record's
terminator omissible; `field := label COLON value` with fields as in
`SpecFields`. -/
inductive SpecDocument : List Nat → Prop where
  | nil : SpecDocument []
  | consLF (r : Record) (rest : List Nat) : r ≠ [] → SpecFields r →
      SpecDocument rest → SpecDocument (renderFields r ++ 0x0a :: rest)
  | consCRLF (r : Record) (rest : List Nat) : r ≠ [] → SpecFields r →
      SpecDocument rest → SpecDocument (renderFields r ++ 0x0d :: 0x0a :: rest)
  | lastRecord (r : Record) : r ≠ [] → SpecFields r →
      SpecDocument (renderFields r)

instance (v : List Nat) : Decidable (wfValue v) := by
  unfold wfValue
  infer_instance

instance (k : List Nat) : Decidable (wfLabel k) := by
  unfold wfLabel
  infer_instance

instance (r : Record) : Decidable (WfFields r) := by
  unfold WfFields
  infer_instance

instance (r : Record) : Decidable (WfRecord r) := by
  unfold WfRecord
  infer_instance

/-! ## Byte-class and whitespace lemmas -/

theorem label_byte_not_ws {b : Nat} (h : isLabelByteN b = true) : isWsByte b = false := by
  simp only [isLabelByteN, Bool.or_eq_true, Bool.and_eq_true, decide_eq_true_eq,
    beq_iff_eq] at h
  rw [← Bool.not_eq_true]
  simp only [isWsByte, Bool.or_eq_true, beq_iff_eq, decide_eq_true_eq, not_or]
  omega

theorem skipws_cons_not_ws {b : Nat} {s : List Nat} (h : isWsByte b = false) :
    skip_whitespaces (b :: s) = b :: s := by
  simp [skip_whitespaces, h]

theorem skipws_length_le : ∀ s : List Nat, (skip_whitespaces s).length ≤ s.length := by
  intro s
  induction s with
  | nil => simp [skip_whitespaces]
  | cons b rest ih =>
    rw [skip_whitespaces]
    split
    · exact le_trans ih (by simp)
    · simp

theorem labelhead_skipws {s : List Nat} (h : LabelHead s) : skip_whitespaces s = s := by
  rcases h with rfl | ⟨b, t, rfl, hb⟩
  · rfl
  · exact skipws_cons_not_ws (label_byte_not_ws hb)

theorem label_byte_ascii {b : Nat} (h : isLabelByteN b = true) : b ≤ 0x7f := by
  simp only [isLabelByteN, Bool.or_eq_true, Bool.and_eq_true, decide_eq_true_eq,
    beq_iff_eq] at h
  omega

theorem ascii_is_utf8_go : ∀ l : List Nat, (∀ b ∈ l, b ≤ 0x7f) → is_utf8_go l 0 = true := by
  intro l
  induction l with
  | nil => intro _; rfl
  | cons b rest ih =>
    intro h
    have hw : utf8_char_width b = 1 := by
      unfold utf8_char_width
      rw [if_pos (h b (by simp))]
    rw [is_utf8_go, hw, if_neg (by omega)]
    exact ih (fun x hx => h x (by simp [hx]))

theorem label_bytes_utf8 {l : List Nat} (h : ∀ b ∈ l, isLabelByteN b = true) :
    is_utf8 l = true := by
  rw [is_utf8]
  exact ascii_is_utf8_go l (fun b hb => label_byte_ascii (h b hb))

/-! ## Scanner success lemmas -/

theorem parse_field_label_ok : ∀ (s bytes : List Nat) t d l s1,
    parse_field_label s bytes = some (.ParseOk t d l, s1) →
    (∀ b ∈ bytes, isLabelByteN b = true) →
    (∀ b ∈ l, isLabelByteN b = true) ∧ l ≠ [] ∧ (∃ r1, s1 = 0x3a :: r1) ∧
      s1.length + l.length = s.length + bytes.length := by
  intro s
  induction s with
  | nil => intro bytes t d l s1 h; simp [parse_field_label] at h
  | cons b rest ih =>
    intro bytes t d l s1 h hbytes
    rw [parse_field_label] at h
    split at h
    · have := ih (bytes ++ [b]) t d l s1 h ?hb
      case hb =>
        intro x hx
        rcases List.mem_append.mp hx with hx | hx
        · exact hbytes x hx
        · simp at hx; subst hx; assumption
      obtain ⟨h1, h2, h3, h4⟩ := this
      refine ⟨h1, h2, h3, ?_⟩
      simp at h4 ⊢
      omega
    · split at h
      · split at h
        · simp at h
        · split at h
          · simp only [Option.some.injEq, Prod.mk.injEq, ParseResult.ParseOk.injEq] at h
            obtain ⟨⟨ht, hd, hl⟩, hs⟩ := h
            subst hl hs
            refine ⟨hbytes, ?_, ⟨rest, by simp [*]⟩, by simp [*]⟩
            intro hnil
            subst hnil
            simp at *
          · simp at h
      · simp at h

/-! ## Scanner error enumeration -/

theorem parse_field_value_ok : ∀ (s bytes : List Nat) t d v s1,
    parse_field_value s bytes = some (.ParseOk t d v, s1) →
    (∀ b ∈ bytes, isValueByteN b = true) →
    (∀ b ∈ v, isValueByteN b = true) ∧ is_utf8 v = true ∧ s1.length ≤ s.length := by
  intro s
  induction s with
  | nil =>
    intro bytes t d v s1 h hbytes
    rw [parse_field_value] at h
    split at h
    · rename_i hu
      simp only [Option.some.injEq, Prod.mk.injEq, ParseResult.ParseOk.injEq] at h
      obtain ⟨⟨_, _, hv⟩, hs⟩ := h
      subst hv hs
      exact ⟨hbytes, hu, by simp⟩
    · simp at h
  | cons b rest ih =>
    intro bytes t d v s1 h hbytes
    rw [parse_field_value] at h
    split at h
    · have := ih (bytes ++ [b]) t d v s1 h ?hb
      case hb =>
        intro x hx
        rcases List.mem_append.mp hx with hx | hx
        · exact hbytes x hx
        · simp at hx; subst hx; assumption
      exact ⟨this.1, this.2.1, le_trans this.2.2 (by simp)⟩
    · split at h
      · split at h
        · rename_i hu
          simp only [Option.some.injEq] at h
          rw [consume_forward_LF] at h
          simp only [bump, List.tail_cons] at h
          split at h
          · simp at h
          · simp only [Prod.mk.injEq, ParseResult.ParseOk.injEq] at h
            obtain ⟨⟨_, _, hv⟩, hs⟩ := h
            subst hv hs
            exact ⟨hbytes, hu, by simp⟩
        · simp at h
      · split at h
        · split at h
          · rename_i hu
            simp only [Option.some.injEq, Prod.mk.injEq, ParseResult.ParseOk.injEq] at h
            obtain ⟨⟨_, _, hv⟩, hs⟩ := h
            subst hv hs
            exact ⟨hbytes, hu, by simp⟩
          · simp at h
        · split at h
          · split at h
            · rename_i hu
              simp only [Option.some.injEq, Prod.mk.injEq, ParseResult.ParseOk.injEq] at h
              obtain ⟨⟨_, _, hv⟩, hs⟩ := h
              subst hv hs
              exact ⟨hbytes, hu, by simp⟩
            · simp at h
          · simp at h

theorem parse_field_label_err : ∀ (s bytes : List Nat) r s1,
    parse_field_label s bytes = some (.ParseError r, s1) →
    r = "label is empty" ∨ r = "EOF while parsing field label" ∨
      r = "invalid byte detected" := by
  intro s
  induction s with
  | nil =>
    intro bytes r s1 h
    rw [parse_field_label] at h
    simp only [Option.some.injEq, Prod.mk.injEq, ParseResult.ParseError.injEq] at h
    tauto
  | cons b rest ih =>
    intro bytes r s1 h
    rw [parse_field_label] at h
    split at h
    · exact ih _ _ _ h
    · split at h
      · split at h
        · simp only [Option.some.injEq, Prod.mk.injEq, ParseResult.ParseError.injEq] at h
          tauto
        · split at h <;> simp at h
      · simp only [Option.some.injEq, Prod.mk.injEq, ParseResult.ParseError.injEq] at h
        tauto

theorem parse_field_value_err : ∀ (s bytes : List Nat) r s1,
    parse_field_value s bytes = some (.ParseError r, s1) →
    r = "invalid byte detected" ∨ r = "CR detected, but not provided with LF" := by
  intro s
  induction s with
  | nil =>
    intro bytes r s1 h
    rw [parse_field_value] at h
    split at h <;> simp at h
  | cons b rest ih =>
    intro bytes r s1 h
    rw [parse_field_value] at h
    split at h
    · exact ih _ _ _ h
    · split at h
      · split at h
        · simp only [Option.some.injEq] at h
          rw [consume_forward_LF] at h
          split at h
          · simp only [Prod.mk.injEq, ParseResult.ParseError.injEq] at h
            tauto
          · simp at h
        · simp at h
      · split at h
        · split at h <;> simp at h
        · split at h
          · split at h <;> simp at h
          · simp only [Option.some.injEq, Prod.mk.injEq, ParseResult.ParseError.injEq] at h
            tauto

/-! ## parse_field success -/

theorem parse_field_ok : ∀ (s : List Nat) t d lv s1,
    parse_field s = some (.ParseOk t d lv, s1) →
    wfLabel lv.1 ∧ wfValue lv.2 ∧ s1.length < s.length := by
  intro s t d lv s1 h
  rw [parse_field] at h
  cases h1 : parse_field_label (skip_whitespaces s) [] with
  | none => rw [h1] at h; simp at h
  | some p1 =>
    obtain ⟨res1, sl⟩ := p1
    rw [h1] at h
    cases res1 with
    | ParseError r => simp at h
    | ParseOk t1 d1 label =>
      simp only at h
      cases h2 : parse_field_value (bump sl) [] with
      | none => rw [h2] at h; simp at h
      | some p2 =>
        obtain ⟨res2, sv⟩ := p2
        rw [h2] at h
        cases res2 with
        | ParseError r => simp at h
        | ParseOk t2 d2 value =>
          simp only at h
          obtain ⟨hlab, hlne, ⟨r1, hsl⟩, hlen⟩ :=
            parse_field_label_ok _ _ _ _ _ _ h1 (by simp)
          obtain ⟨hval, hvu, hvlen⟩ := parse_field_value_ok _ _ _ _ _ _ h2 (by simp)
          simp only [Option.some.injEq, Prod.mk.injEq, ParseResult.ParseOk.injEq] at h
          obtain ⟨⟨-, -, hlv⟩, hs1⟩ := h
          subst hlv
          refine ⟨⟨hlne, hlab⟩, ⟨hval, hvu⟩, ?_⟩
          have h0 : (skip_whitespaces s).length ≤ s.length := skipws_length_le s
          have hbl : (bump sl).length = r1.length := by simp [hsl, bump]
          have hb4 : (bump sv).length ≤ sv.length := by simp [bump]
          have h5 : s1.length ≤ (bump sv).length := by
            rw [← hs1]
            split
            · exact skipws_length_le _
            · exact le_refl _
          have hslen : sl.length = r1.length + 1 := by simp [hsl]
          have hl1 : 1 ≤ label.length := List.length_pos.mpr hlne
          simp only [List.length_nil] at hlen
          omega

/-! ## Outer loop lemmas -/

theorem parse_field_err : ∀ (s : List Nat) r s1,
    parse_field s = some (.ParseError r, s1) →
    r = "label is empty" ∨ r = "EOF while parsing field label" ∨
      r = "invalid byte detected" ∨ r = "CR detected, but not provided with LF" := by
  intro s r s1 h
  rw [parse_field] at h
  cases h1 : parse_field_label (skip_whitespaces s) [] with
  | none => rw [h1] at h; simp at h
  | some p1 =>
    obtain ⟨res1, sl⟩ := p1
    rw [h1] at h
    cases res1 with
    | ParseError r2 =>
      simp only [Option.some.injEq, Prod.mk.injEq, ParseResult.ParseError.injEq] at h
      rcases parse_field_label_err _ _ _ _ h1 with h2 | h2 | h2 <;> simp [← h.1, h2]
    | ParseOk t1 d1 label =>
      simp only at h
      cases h2 : parse_field_value (bump sl) [] with
      | none => rw [h2] at h; simp at h
      | some p2 =>
        obtain ⟨res2, sv⟩ := p2
        rw [h2] at h
        cases res2 with
        | ParseError r2 =>
          simp only [Option.some.injEq, Prod.mk.injEq, ParseResult.ParseError.injEq] at h
          rcases parse_field_value_err _ _ _ _ h2 with h3 | h3 <;> simp [← h.1, h3]
        | ParseOk t2 d2 value => simp at h

theorem parse_record_go_len : ∀ (fuel : Nat) (s : List Nat) record t d rc s1,
    parse_record_go fuel s record = some (.ParseOk t d rc, s1) → s1.length < s.length := by
  intro fuel
  induction fuel with
  | zero => intro s record t d rc s1 h; simp [parse_record_go] at h
  | succ fuel ih =>
    intro s record t d rc s1 h
    rw [parse_record_go] at h
    cases h1 : parse_field s with
    | none => rw [h1] at h; simp at h
    | some p1 =>
      obtain ⟨res1, sf⟩ := p1
      rw [h1] at h
      cases res1 with
      | ParseError r => simp at h
      | ParseOk t1 d1 lv =>
        obtain ⟨l, v⟩ := lv
        simp only at h
        split at h
        · exact lt_trans (ih _ _ _ _ _ _ h) (parse_field_ok _ _ _ _ _ h1).2.2
        · simp only [Option.some.injEq, Prod.mk.injEq, ParseResult.ParseOk.injEq] at h
          obtain ⟨-, hs⟩ := h
          subst hs
          exact (parse_field_ok _ _ _ _ _ h1).2.2

theorem parse_record_go_err : ∀ (fuel : Nat) (s : List Nat) record r s1,
    s.length < fuel → parse_record_go fuel s record = some (.ParseError r, s1) →
    r = "label is empty" ∨ r = "EOF while parsing field label" ∨
      r = "invalid byte detected" ∨ r = "CR detected, but not provided with LF" := by
  intro fuel
  induction fuel with
  | zero => intro s record r s1 hf; omega
  | succ fuel ih =>
    intro s record r s1 hf h
    rw [parse_record_go] at h
    cases h1 : parse_field s with
    | none => rw [h1] at h; simp at h
    | some p1 =>
      obtain ⟨res1, sf⟩ := p1
      rw [h1] at h
      cases res1 with
      | ParseError r2 =>
        simp only [Option.some.injEq, Prod.mk.injEq, ParseResult.ParseError.injEq] at h
        rw [← h.1]
        exact parse_field_err _ _ _ h1
      | ParseOk t1 d1 lv =>
        obtain ⟨l, v⟩ := lv
        simp only at h
        split at h
        · have hlt := (parse_field_ok _ _ _ _ _ h1).2.2
          exact ih _ _ _ _ (by omega) h
        · simp at h

/-! ## Record insertion preserves well-formedness -/

theorem mem_keys_iff_any (r : Record) (k : List Nat) :
    r.any (fun f => f.1 = k) = true ↔ k ∈ keys r := by
  simp [List.any_eq_true, keys]

theorem insertRec_ne_nil (r : Record) (k v : List Nat) : insertRec r k v ≠ [] := by
  rw [insertRec]
  split
  · rename_i h
    cases r with
    | nil => simp at h
    | cons f fs => simp
  · simp

theorem insertRec_not_mem (r : Record) (k v : List Nat) (h : k ∉ keys r) :
    insertRec r k v = r ++ [(k, v)] := by
  have hc : ¬(r.any (fun f => f.1 = k) = true) :=
    fun hc => h ((mem_keys_iff_any r k).mp hc)
  rw [insertRec, if_neg hc]

theorem keys_insertRec_mem (r : Record) (k v : List Nat) (h : k ∈ keys r) :
    keys (insertRec r k v) = keys r := by
  rw [insertRec, if_pos ((mem_keys_iff_any r k).mpr h)]
  simp only [keys, List.map_map]
  apply List.map_congr_left
  intro f _
  simp only [Function.comp_apply]
  split
  · rename_i he; simp [he]
  · rfl

theorem keys_insertRec (r : Record) (k v : List Nat) :
    (keys r).Nodup → (keys (insertRec r k v)).Nodup := by
  intro hnd
  by_cases h : k ∈ keys r
  · rw [keys_insertRec_mem r k v h]; exact hnd
  · rw [insertRec_not_mem r k v h]
    simp only [keys, List.map_append]
    simp only [keys] at hnd h
    simp [List.nodup_append, hnd, h]

theorem wfFields_insertRec (r : Record) (k v : List Nat) :
    WfFields r → wfLabel k → wfValue v → WfFields (insertRec r k v) := by
  intro hr hk hv
  rw [insertRec]
  split
  · intro f hf
    simp only [List.mem_map] at hf
    obtain ⟨g, hg, he⟩ := hf
    subst he
    split
    · exact ⟨hk, hv⟩
    · exact hr g hg
  · intro f hf
    rcases List.mem_append.mp hf with hf | hf
    · exact hr f hf
    · simp at hf; subst hf; exact ⟨hk, hv⟩

theorem parse_record_go_wf : ∀ (fuel : Nat) (s : List Nat) record t d rc s1,
    parse_record_go fuel s record = some (.ParseOk t d rc, s1) →
    (keys record).Nodup → WfFields record → WfRecord rc := by
  intro fuel
  induction fuel with
  | zero => intro s record t d rc s1 h; simp [parse_record_go] at h
  | succ fuel ih =>
    intro s record t d rc s1 h hnd hwf
    rw [parse_record_go] at h
    cases h1 : parse_field s with
    | none => rw [h1] at h; simp at h
    | some p1 =>
      obtain ⟨res1, sf⟩ := p1
      rw [h1] at h
      cases res1 with
      | ParseError r => simp at h
      | ParseOk t1 d1 lv =>
        obtain ⟨l, v⟩ := lv
        simp only at h
        obtain ⟨⟨hlne, hlab⟩, hval, -⟩ := parse_field_ok _ _ _ _ _ h1
        split at h
        · exact ih _ _ _ _ _ _ h (keys_insertRec _ _ _ hnd)
            (wfFields_insertRec _ _ _ hwf ⟨hlne, hlab⟩ hval)
        · simp only [Option.some.injEq, Prod.mk.injEq, ParseResult.ParseOk.injEq] at h
          obtain ⟨⟨-, -, hrc⟩, -⟩ := h
          subst hrc
          exact ⟨insertRec_ne_nil _ _ _, keys_insertRec _ _ _ hnd,
            wfFields_insertRec _ _ _ hwf ⟨hlne, hlab⟩ hval⟩

theorem parse_ltsv_go_wf : ∀ (fuel : Nat) (s : List Nat) racc t d docs s1,
    parse_ltsv_go fuel s racc = some (.ParseOk t d docs, s1) →
    (∀ rc ∈ racc, WfRecord rc) →
    (∀ rc ∈ docs, WfRecord rc) ∧ docs ≠ [] := by
  intro fuel
  induction fuel with
  | zero => intro s racc t d docs s1 h; simp [parse_ltsv_go] at h
  | succ fuel ih =>
    intro s racc t d docs s1 h hacc
    rw [parse_ltsv_go] at h
    cases h1 : parse_record s with
    | none => rw [h1] at h; simp at h
    | some p1 =>
      obtain ⟨res1, sr⟩ := p1
      rw [h1] at h
      cases res1 with
      | ParseError r => simp at h
      | ParseOk t1 d1 rc =>
        simp only at h
        rw [parse_record] at h1
        have hwf : WfRecord rc :=
          parse_record_go_wf _ _ _ _ _ _ _ h1 (by simp [keys]) (by intro f hf; simp at hf)
        split at h
        · simp only [Option.some.injEq, Prod.mk.injEq, ParseResult.ParseOk.injEq] at h
          obtain ⟨⟨-, -, hdocs⟩, -⟩ := h
          subst hdocs
          refine ⟨?_, by simp⟩
          intro x hx
          rcases List.mem_append.mp hx with hx | hx
          · exact hacc x hx
          · simp at hx; subst hx; exact hwf
        · have := ih _ _ _ _ _ _ h ?hr
          case hr =>
            intro x hx
            rcases List.mem_append.mp hx with hx | hx
            · exact hacc x hx
            · simp at hx; subst hx; exact hwf
          exact this

theorem parse_ltsv_go_err : ∀ (fuel : Nat) (s : List Nat) racc r s1,
    s.length < fuel → parse_ltsv_go fuel s racc = some (.ParseError r, s1) →
    r = "label is empty" ∨ r = "EOF while parsing field label" ∨
      r = "invalid byte detected" ∨ r = "CR detected, but not provided with LF" := by
  intro fuel
  induction fuel with
  | zero => intro s racc r s1 hf; omega
  | succ fuel ih =>
    intro s racc r s1 hf h
    rw [parse_ltsv_go] at h
    cases h1 : parse_record s with
    | none => rw [h1] at h; simp at h
    | some p1 =>
      obtain ⟨res1, sr⟩ := p1
      rw [h1] at h
      cases res1 with
      | ParseError r2 =>
        simp only [Option.some.injEq, Prod.mk.injEq, ParseResult.ParseError.injEq] at h
        rw [← h.1]
        rw [parse_record] at h1
        exact parse_record_go_err _ _ _ _ _ (by omega) h1
      | ParseOk t1 d1 rc =>
        simp only at h
        rw [parse_record] at h1
        have hlt := parse_record_go_len _ _ _ _ _ _ _ h1
        split at h
        · simp at h
        · exact ih _ _ _ _ (by omega) h

/-! ## Rendered input: scanner lemmas -/

theorem parse_field_label_app : ∀ (l rest bytes : List Nat),
    (∀ b ∈ l, isLabelByteN b = true) →
    parse_field_label (l ++ rest) bytes = parse_field_label rest (bytes ++ l) := by
  intro l
  induction l with
  | nil => intro rest bytes _; simp
  | cons b l ih =>
    intro rest bytes hl
    rw [List.cons_append, parse_field_label, if_pos (hl b (by simp))]
    rw [ih rest (bytes ++ [b]) (fun x hx => hl x (by simp [hx]))]
    simp

theorem parse_field_label_colon (rest bytes : List Nat) (hne : bytes ≠ [])
    (hu : is_utf8 bytes = true) :
    parse_field_label (0x3a :: rest) bytes =
      some (.ParseOk .FieldLabel .MISC bytes, 0x3a :: rest) := by
  rw [parse_field_label, if_neg (by simp [isLabelByteN]), if_pos rfl,
    if_neg (by simp [hne]), if_pos hu]

theorem parse_field_value_app : ∀ (v rest bytes : List Nat),
    (∀ b ∈ v, isValueByteN b = true) →
    parse_field_value (v ++ rest) bytes = parse_field_value rest (bytes ++ v) := by
  intro v
  induction v with
  | nil => intro rest bytes _; simp
  | cons b v ih =>
    intro rest bytes hv
    rw [List.cons_append, parse_field_value, if_pos (hv b (by simp))]
    rw [ih rest (bytes ++ [b]) (fun x hx => hv x (by simp [hx]))]
    simp

theorem parse_field_value_lf (rest bytes : List Nat) (hu : is_utf8 bytes = true) :
    parse_field_value (0x0a :: rest) bytes =
      some (.ParseOk .FieldValue .NL bytes, 0x0a :: rest) := by
  rw [parse_field_value, if_neg (by simp [isValueByteN]), if_neg (by omega), if_pos rfl,
    if_pos hu]

theorem parse_field_value_tab (rest bytes : List Nat) (hu : is_utf8 bytes = true) :
    parse_field_value (0x09 :: rest) bytes =
      some (.ParseOk .FieldValue .TAB bytes, 0x09 :: rest) := by
  rw [parse_field_value, if_neg (by simp [isValueByteN]), if_neg (by omega),
    if_neg (by omega), if_pos rfl, if_pos hu]

theorem parse_field_value_crlf (rest bytes : List Nat) (hu : is_utf8 bytes = true) :
    parse_field_value (0x0d :: 0x0a :: rest) bytes =
      some (.ParseOk .FieldValue .NL bytes, 0x0a :: rest) := by
  rw [parse_field_value, if_neg (by simp [isValueByteN]), if_pos rfl, if_pos hu]
  rw [consume_forward_LF]
  simp [bump, cur]

theorem parse_field_value_nil (bytes : List Nat) (hu : is_utf8 bytes = true) :
    parse_field_value [] bytes = some (.ParseOk .FieldValue .EOF bytes, []) := by
  rw [parse_field_value, if_pos hu]

/-! ## Rendered input: field lemmas -/

theorem labelhead_append {l : List Nat} (hl : wfLabel l) (xs : List Nat) :
    LabelHead (l ++ xs) := by
  obtain ⟨hne, hbytes⟩ := hl
  cases l with
  | nil => exact absurd rfl hne
  | cons b t => exact Or.inr ⟨b, t ++ xs, by simp, hbytes b (by simp)⟩

theorem parse_field_render_tab {l v : List Nat} (rest : List Nat)
    (hl : wfLabel l) (hv : wfValue v) :
    parse_field (l ++ 0x3a :: (v ++ 0x09 :: rest)) =
      some (.ParseOk .Field (if rest.isEmpty then .EOF else .TAB) (l, v), rest) := by
  have hskip := labelhead_skipws (labelhead_append hl (0x3a :: (v ++ 0x09 :: rest)))
  have hlab : parse_field_label (l ++ 0x3a :: (v ++ 0x09 :: rest)) [] =
      some (.ParseOk .FieldLabel .MISC l, 0x3a :: (v ++ 0x09 :: rest)) := by
    rw [parse_field_label_app l _ [] hl.2, List.nil_append,
      parse_field_label_colon _ l hl.1 (label_bytes_utf8 hl.2)]
  have hval : parse_field_value (v ++ 0x09 :: rest) [] =
      some (.ParseOk .FieldValue .TAB v, 0x09 :: rest) := by
    rw [parse_field_value_app v _ [] hv.1, List.nil_append,
      parse_field_value_tab _ v hv.2]
  rw [parse_field, hskip, hlab]
  simp only [bump, List.tail_cons]
  rw [hval]
  simp [eofP]

theorem parse_field_render_nl {l v : List Nat} (rest : List Nat)
    (hl : wfLabel l) (hv : wfValue v) :
    parse_field (l ++ 0x3a :: (v ++ 0x0a :: rest)) =
      some (.ParseOk .Field (if (skip_whitespaces rest).isEmpty then .EOF else .NL) (l, v),
        skip_whitespaces rest) := by
  have hskip := labelhead_skipws (labelhead_append hl (0x3a :: (v ++ 0x0a :: rest)))
  have hlab : parse_field_label (l ++ 0x3a :: (v ++ 0x0a :: rest)) [] =
      some (.ParseOk .FieldLabel .MISC l, 0x3a :: (v ++ 0x0a :: rest)) := by
    rw [parse_field_label_app l _ [] hl.2, List.nil_append,
      parse_field_label_colon _ l hl.1 (label_bytes_utf8 hl.2)]
  have hval : parse_field_value (v ++ 0x0a :: rest) [] =
      some (.ParseOk .FieldValue .NL v, 0x0a :: rest) := by
    rw [parse_field_value_app v _ [] hv.1, List.nil_append,
      parse_field_value_lf _ v hv.2]
  rw [parse_field, hskip, hlab]
  simp only [bump, List.tail_cons]
  rw [hval]
  simp [eofP]

theorem parse_field_render_eof {l v : List Nat}
    (hl : wfLabel l) (hv : wfValue v) :
    parse_field (l ++ 0x3a :: v) = some (.ParseOk .Field .EOF (l, v), []) := by
  have hskip := labelhead_skipws (labelhead_append hl (0x3a :: v))
  have hlab : parse_field_label (l ++ 0x3a :: v) [] =
      some (.ParseOk .FieldLabel .MISC l, 0x3a :: v) := by
    rw [parse_field_label_app l _ [] hl.2, List.nil_append,
      parse_field_label_colon _ l hl.1 (label_bytes_utf8 hl.2)]
  have hval : parse_field_value v [] = some (.ParseOk .FieldValue .EOF v, []) := by
    conv_lhs => rw [← List.append_nil v]
    rw [parse_field_value_app v [] [] hv.1, List.nil_append,
      parse_field_value_nil v hv.2]
  rw [parse_field, hskip, hlab]
  simp only [bump, List.tail_cons]
  rw [hval]
  simp [eofP, skip_whitespaces]

/-! ## Rendered input: record lemmas -/

theorem renderFields_ne_nil (f : List Nat × List Nat) (fs : Record) :
    renderFields (f :: fs) ≠ [] := by
  cases fs <;> simp [renderFields]

theorem foldIns_cons (racc : Record) (f : List Nat × List Nat) (fs : Record) :
    foldIns racc (f :: fs) = foldIns (insertRec racc f.1 f.2) fs := by
  simp [foldIns]

theorem parse_record_go_render_nl : ∀ (fs : Record) (fuel : Nat) (racc : Record)
    (rest : List Nat), fs ≠ [] → WfFields fs → LabelHead rest →
    (renderFields fs ++ 0x0a :: rest).length < fuel →
    parse_record_go fuel (renderFields fs ++ 0x0a :: rest) racc =
      some (.ParseOk .Record (if rest.isEmpty then .EOF else .NL) (foldIns racc fs), rest) := by
  intro fs
  induction fs with
  | nil => intro fuel racc rest h; exact absurd rfl h
  | cons f fs ih =>
    intro fuel racc rest _ hwf hlh hf
    obtain ⟨m, rfl⟩ : ∃ m, fuel = m + 1 := ⟨fuel - 1, by omega⟩
    obtain ⟨hlf, hvf⟩ := hwf f (by simp)
    cases fs with
    | nil =>
      have hin : renderFields [f] ++ 0x0a :: rest = f.1 ++ 0x3a :: (f.2 ++ 0x0a :: rest) := by
        simp [renderFields, List.append_assoc]
      rw [parse_record_go, hin, parse_field_render_nl rest hlf hvf, labelhead_skipws hlh]
      have hD : (if rest.isEmpty then ParseDelimiter.EOF else .NL) ≠ .TAB := by
        split <;> simp
      simp only [if_neg hD]
      simp [foldIns]
    | cons g gs =>
      have hin : renderFields (f :: g :: gs) ++ 0x0a :: rest =
          f.1 ++ 0x3a :: (f.2 ++ 0x09 :: (renderFields (g :: gs) ++ 0x0a :: rest)) := by
        simp [renderFields, List.append_assoc]
      have hne : (renderFields (g :: gs) ++ 0x0a :: rest).isEmpty = false := by
        simp
      rw [hin] at hf
      have hstep : parse_record_go (m + 1) (renderFields (f :: g :: gs) ++ 0x0a :: rest) racc =
          parse_record_go m (renderFields (g :: gs) ++ 0x0a :: rest) (insertRec racc f.1 f.2) := by
        rw [parse_record_go, hin, parse_field_render_tab _ hlf hvf, hne]
        simp
      rw [hstep,
        ih m (insertRec racc f.1 f.2) rest (by simp) (fun x hx => hwf x (by simp [hx])) hlh ?hfuel]
      case hfuel =>
        simp only [List.length_append, List.length_cons] at hf ⊢
        omega
      simp [foldIns]

theorem parse_record_go_render_eof : ∀ (fs : Record) (fuel : Nat) (racc : Record),
    fs ≠ [] → WfFields fs →
    (renderFields fs).length < fuel →
    parse_record_go fuel (renderFields fs) racc =
      some (.ParseOk .Record .EOF (foldIns racc fs), []) := by
  intro fs
  induction fs with
  | nil => intro fuel racc h; exact absurd rfl h
  | cons f fs ih =>
    intro fuel racc _ hwf hf
    obtain ⟨m, rfl⟩ : ∃ m, fuel = m + 1 := ⟨fuel - 1, by omega⟩
    obtain ⟨hlf, hvf⟩ := hwf f (by simp)
    cases fs with
    | nil =>
      have hin : renderFields [f] = f.1 ++ 0x3a :: f.2 := rfl
      rw [parse_record_go, hin, parse_field_render_eof hlf hvf]
      simp only [if_neg (by simp : ParseDelimiter.EOF ≠ .TAB)]
      simp [foldIns]
    | cons g gs =>
      have hin : renderFields (f :: g :: gs) =
          f.1 ++ 0x3a :: (f.2 ++ 0x09 :: renderFields (g :: gs)) := by
        simp [renderFields, List.append_assoc]
      have hne : (renderFields (g :: gs)).isEmpty = false := by
        cases gs <;> simp [renderFields]
      rw [hin] at hf
      have hstep : parse_record_go (m + 1) (renderFields (f :: g :: gs)) racc =
          parse_record_go m (renderFields (g :: gs)) (insertRec racc f.1 f.2) := by
        rw [parse_record_go, hin, parse_field_render_tab _ hlf hvf, hne]
        simp
      rw [hstep, ih m (insertRec racc f.1 f.2) (by simp) (fun x hx => hwf x (by simp [hx])) ?hfuel]
      case hfuel =>
        simp only [List.length_append, List.length_cons] at hf ⊢
        omega
      simp [foldIns]

/-! ## Rendered input: document lemmas -/

theorem renderDocs_ne_nil (r : Record) (rs : List Record) (trail : Bool)
    (hr : r ≠ []) : renderDocs (r :: rs) trail ≠ [] := by
  obtain ⟨f, fs, rfl⟩ : ∃ f fs, r = f :: fs := by
    cases r with
    | nil => exact absurd rfl hr
    | cons f fs => exact ⟨f, fs, rfl⟩
  cases rs with
  | nil =>
    simp only [renderDocs]
    intro hc
    exact renderFields_ne_nil f fs (by rcases List.append_eq_nil.mp hc with ⟨h1, -⟩; exact h1)
  | cons r2 rs' =>
    simp [renderDocs]

theorem renderDocs_labelhead : ∀ (docs : List Record) (trail : Bool),
    (∀ r ∈ docs, r ≠ [] ∧ WfFields r) → LabelHead (renderDocs docs trail) := by
  intro docs trail hwf
  cases docs with
  | nil => exact Or.inl rfl
  | cons r rs =>
    obtain ⟨hne, hfs⟩ := hwf r (by simp)
    obtain ⟨f, fs, rfl⟩ : ∃ f fs, r = f :: fs := by
      cases r with
      | nil => exact absurd rfl hne
      | cons f fs => exact ⟨f, fs, rfl⟩
    have hl : wfLabel f.1 := (hfs f (by simp)).1
    have hshape : ∃ xs, renderDocs ((f :: fs) :: rs) trail = f.1 ++ xs := by
      cases rs with
      | nil =>
        cases fs with
        | nil => exact ⟨0x3a :: f.2 ++ (if trail then [0x0a] else []), by simp [renderDocs, renderFields]⟩
        | cons g gs =>
          exact ⟨0x3a :: (f.2 ++ 0x09 :: renderFields (g :: gs)) ++ (if trail then [0x0a] else []),
            by simp [renderDocs, renderFields, List.append_assoc]⟩
      | cons r2 rs' =>
        cases fs with
        | nil => exact ⟨0x3a :: f.2 ++ 0x0a :: renderDocs (r2 :: rs') trail,
            by simp [renderDocs, renderFields, List.append_assoc]⟩
        | cons g gs =>
          exact ⟨0x3a :: (f.2 ++ 0x09 :: renderFields (g :: gs)) ++ 0x0a :: renderDocs (r2 :: rs') trail,
            by simp [renderDocs, renderFields, List.append_assoc]⟩
    obtain ⟨xs, hxs⟩ := hshape
    rw [hxs]
    exact labelhead_append hl xs

theorem parse_ltsv_go_render : ∀ (docs : List Record) (fuel : Nat) (racc : List Record)
    (trail : Bool), docs ≠ [] → (∀ r ∈ docs, r ≠ [] ∧ WfFields r) →
    (renderDocs docs trail).length < fuel →
    parse_ltsv_go fuel (renderDocs docs trail) racc =
      some (.ParseOk .Ltsv .EOF (racc ++ docs.map (fun r => foldIns [] r)), []) := by
  intro docs
  induction docs with
  | nil => intro fuel racc trail h; exact absurd rfl h
  | cons r rs ih =>
    intro fuel racc trail _ hwf hf
    obtain ⟨m, rfl⟩ : ∃ m, fuel = m + 1 := ⟨fuel - 1, by omega⟩
    obtain ⟨hne, hfs⟩ := hwf r (by simp)
    cases rs with
    | nil =>
      cases trail with
      | true =>
        have hin : renderDocs [r] true = renderFields r ++ 0x0a :: [] := by
          simp [renderDocs]
        have hrec : parse_record (renderFields r ++ 0x0a :: ([] : List Nat)) =
            some (.ParseOk .Record .EOF (foldIns [] r), []) := by
          rw [parse_record,
            parse_record_go_render_nl r _ [] [] hne hfs (Or.inl rfl) (by omega)]
          simp
        rw [parse_ltsv_go, hin, hrec]
        simp
      | false =>
        have hin : renderDocs [r] false = renderFields r := by simp [renderDocs]
        have hrec : parse_record (renderFields r) =
            some (.ParseOk .Record .EOF (foldIns [] r), []) := by
          rw [parse_record]
          exact parse_record_go_render_eof r _ [] hne hfs (by omega)
        rw [parse_ltsv_go, hin, hrec]
        simp
    | cons r2 rs' =>
      have hin : renderDocs (r :: r2 :: rs') trail =
          renderFields r ++ 0x0a :: renderDocs (r2 :: rs') trail := by simp [renderDocs]
      have hlh : LabelHead (renderDocs (r2 :: rs') trail) :=
        renderDocs_labelhead _ _ (fun x hx => hwf x (by simp [hx]))
      have hrne : (renderDocs (r2 :: rs') trail).isEmpty = false := by
        rcases hx : renderDocs (r2 :: rs') trail with _ | ⟨b, t⟩
        · exact absurd hx (renderDocs_ne_nil r2 rs' trail (hwf r2 (by simp)).1)
        · rfl
      have hrec : parse_record (renderFields r ++ 0x0a :: renderDocs (r2 :: rs') trail) =
          some (.ParseOk .Record .NL (foldIns [] r), renderDocs (r2 :: rs') trail) := by
        rw [parse_record,
          parse_record_go_render_nl r _ [] _ hne hfs hlh (by omega), hrne]
        simp
      rw [hin] at hf
      have hstep : parse_ltsv_go (m + 1) (renderDocs (r :: r2 :: rs') trail) racc =
          parse_ltsv_go m (renderDocs (r2 :: rs') trail) (racc ++ [foldIns [] r]) := by
        rw [parse_ltsv_go, hin, hrec]
        simp
      rw [hstep, ih m (racc ++ [foldIns [] r]) trail (by simp)
        (fun x hx => hwf x (by simp [hx]))
        (by simp only [List.length_append, List.length_cons] at hf ⊢; omega)]
      simp

/-! ## Writer equals wire rendering -/

theorem renderFields_eq_tabJoin : ∀ (f : List Nat × List Nat) (fs : Record),
    renderFields (f :: fs) = f.1 ++ 0x3a :: f.2 ++ tabJoin fs := by
  intro f fs
  induction fs generalizing f with
  | nil => simp [renderFields, tabJoin]
  | cons g gs ih =>
    rw [show renderFields (f :: g :: gs) = f.1 ++ 0x3a :: f.2 ++ 0x09 :: renderFields (g :: gs)
      from rfl, ih g]
    simp [tabJoin, List.append_assoc]

theorem write_fold_gen : ∀ (fs : Record) (acc : List Nat) (b : Bool),
    (List.foldl
      (fun acc f => (acc.1 ++ (if acc.2 then [] else [0x09]) ++ f.1 ++ 0x3a :: f.2, false))
      (acc, b) fs).1 = acc ++ (if b then renderFields fs else tabJoin fs) := by
  intro fs
  induction fs with
  | nil => intro acc b; cases b <;> simp [renderFields, tabJoin]
  | cons f fs ih =>
    intro acc b
    cases b with
    | false =>
      simp only [List.foldl_cons, Bool.false_eq_true, if_false]
      rw [ih]
      simp [tabJoin, List.append_assoc]
    | true =>
      simp only [List.foldl_cons, if_true]
      rw [ih]
      rw [renderFields_eq_tabJoin]
      simp [List.append_assoc]

theorem write_ltsv_record_eq : ∀ r : Record, write_ltsv_record r = renderFields r := by
  intro r
  rw [write_ltsv_record, write_fold_gen r [] true]
  simp

theorem write_ltsv_fold : ∀ (docs : List Record) (acc : List Nat),
    List.foldl (fun acc record => acc ++ write_ltsv_record record ++ [0x0a]) acc docs =
      acc ++ lfJoin docs := by
  intro docs
  induction docs with
  | nil => intro acc; simp [lfJoin]
  | cons r rs ih =>
    intro acc
    rw [List.foldl_cons, ih, write_ltsv_record_eq]
    simp [lfJoin, List.append_assoc]

theorem renderDocs_true_eq_lfJoin : ∀ docs : List Record, renderDocs docs true = lfJoin docs := by
  intro docs
  induction docs with
  | nil => rfl
  | cons r rs ih =>
    cases rs with
    | nil => simp [renderDocs, lfJoin]
    | cons r2 rs' =>
      rw [show renderDocs (r :: r2 :: rs') true =
        renderFields r ++ 0x0a :: renderDocs (r2 :: rs') true from rfl, ih]
      simp [lfJoin]

theorem write_ltsv_eq : ∀ docs : List Record, write_ltsv docs = renderDocs docs true := by
  intro docs
  rw [write_ltsv, write_ltsv_fold, renderDocs_true_eq_lfJoin, List.nil_append]

/-! ## Canonical records survive reinsertion -/

theorem foldIns_disjoint : ∀ (fs racc : Record),
    (keys fs).Nodup → (∀ k ∈ keys fs, k ∉ keys racc) →
    foldIns racc fs = racc ++ fs := by
  intro fs
  induction fs with
  | nil => intro racc _ _; simp [foldIns]
  | cons f fs ih =>
    intro racc hnd hdisj
    have hk : f.1 ∉ keys racc := hdisj f.1 (by simp [keys])
    rw [foldIns_cons, insertRec_not_mem racc f.1 f.2 hk]
    have hnd' : (keys fs).Nodup := by
      simp only [keys, List.map_cons, List.nodup_cons] at hnd
      exact hnd.2
    have hhd : f.1 ∉ keys fs := by
      simp only [keys, List.map_cons, List.nodup_cons] at hnd
      exact hnd.1
    rw [ih (racc ++ [(f.1, f.2)]) hnd' ?hdisj2]
    case hdisj2 =>
      intro k hkfs
      simp only [keys, List.map_append] at *
      simp only [List.mem_append]
      rintro (hc | hc)
      · exact hdisj k (by simp [hkfs]) hc
      · simp at hc
        exact hhd (hc ▸ hkfs)
    simp

theorem foldIns_self (r : Record) (h : (keys r).Nodup) : foldIns [] r = r := by
  rw [foldIns_disjoint r [] h (by simp [keys]), List.nil_append]

theorem map_foldIns_self : ∀ docs : List Record,
    (∀ r ∈ docs, (keys r).Nodup) → docs.map (fun r => foldIns [] r) = docs := by
  intro docs
  induction docs with
  | nil => intro _; rfl
  | cons r rs ih =>
    intro h
    rw [List.map_cons, foldIns_self r (h r (by simp)), ih (fun x hx => h x (by simp [hx]))]

/-! ## Lookup and last-value lemmas -/

theorem lastVal_foldl : ∀ (fs : Record) (o : Option (List Nat)) (k : List Nat),
    fs.foldl (fun o f => if f.1 = k then some f.2 else o) o =
      (lastVal fs k).elim o some := by
  intro fs
  induction fs with
  | nil => intro o k; simp [lastVal]
  | cons g fs ih =>
    intro o k
    have hl2 : lastVal (g :: fs) k =
        (lastVal fs k).elim (if g.1 = k then some g.2 else none) some := by
      conv_lhs => rw [lastVal, List.foldl_cons]
      rw [ih]
    rw [List.foldl_cons, ih, hl2]
    cases hl : lastVal fs k with
    | none => by_cases hg : g.1 = k <;> simp [hg]
    | some v => simp

theorem lastVal_cons (f : List Nat × List Nat) (fs : Record) (k : List Nat) :
    lastVal (f :: fs) k = (lastVal fs k).elim (if f.1 = k then some f.2 else none) some := by
  conv_lhs => rw [lastVal, List.foldl_cons]
  rw [lastVal_foldl]

theorem lookup_map_replace : ∀ (r : Record) (k v : List Nat),
    r.any (fun f => f.1 = k) = true →
    lookupRec (r.map (fun f => if f.1 = k then (k, v) else f)) k = some v := by
  intro r
  induction r with
  | nil => intro k v h; simp at h
  | cons f r ih =>
    intro k v h
    by_cases hf : f.1 = k
    · rw [List.map_cons, if_pos hf, lookupRec, if_pos rfl]
    · rw [List.map_cons, if_neg hf, lookupRec, if_neg hf]
      simp only [List.any_cons, Bool.or_eq_true, decide_eq_true_eq] at h
      rcases h with h | h
      · exact absurd h hf
      · exact ih k v h

theorem lookup_append_key : ∀ (r : Record) (k v : List Nat), k ∉ keys r →
    lookupRec (r ++ [(k, v)]) k = some v := by
  intro r
  induction r with
  | nil => intro k v _; simp [lookupRec]
  | cons f r ih =>
    intro k v h
    simp only [keys, List.map_cons, List.mem_cons, not_or] at h
    rw [List.cons_append, lookupRec, if_neg (fun hc => h.1 hc.symm)]
    exact ih k v (by simpa [keys] using h.2)

theorem lookup_insert_self (r : Record) (k v : List Nat) :
    lookupRec (insertRec r k v) k = some v := by
  by_cases h : r.any (fun f => f.1 = k) = true
  · rw [insertRec, if_pos h]
    exact lookup_map_replace r k v h
  · have hk : k ∉ keys r := fun hc => h ((mem_keys_iff_any r k).mpr hc)
    rw [insertRec_not_mem r k v hk]
    exact lookup_append_key r k v hk

theorem lookup_map_other : ∀ (r : Record) (k v k2 : List Nat), k2 ≠ k →
    lookupRec (r.map (fun f => if f.1 = k then (k, v) else f)) k2 = lookupRec r k2 := by
  intro r
  induction r with
  | nil => intro k v k2 _; rfl
  | cons f r ih =>
    intro k v k2 hne
    by_cases hf : f.1 = k
    · have hk2 : ¬((k, v).1 = k2) := fun hc => hne (hc.symm)
      have hk3 : ¬(f.1 = k2) := by rw [hf]; exact fun hc => hne hc.symm
      rw [List.map_cons, if_pos hf, lookupRec, if_neg hk2, lookupRec, if_neg hk3]
      exact ih k v k2 hne
    · rw [List.map_cons, if_neg hf]
      by_cases hf2 : f.1 = k2
      · rw [lookupRec, if_pos hf2, lookupRec, if_pos hf2]
      · rw [lookupRec, if_neg hf2, lookupRec, if_neg hf2]
        exact ih k v k2 hne

theorem lookup_append_other : ∀ (r : Record) (k v k2 : List Nat), k2 ≠ k →
    lookupRec (r ++ [(k, v)]) k2 = lookupRec r k2 := by
  intro r
  induction r with
  | nil =>
    intro k v k2 hne
    have hk : ¬(k = k2) := fun hc => hne hc.symm
    simp [lookupRec, hk]
  | cons f r ih =>
    intro k v k2 hne
    by_cases hf2 : f.1 = k2
    · rw [List.cons_append, lookupRec, if_pos hf2, lookupRec, if_pos hf2]
    · rw [List.cons_append, lookupRec, if_neg hf2, lookupRec, if_neg hf2]
      exact ih k v k2 hne

theorem lookup_insert_other (r : Record) (k v k2 : List Nat) (hne : k2 ≠ k) :
    lookupRec (insertRec r k v) k2 = lookupRec r k2 := by
  rw [insertRec]
  split
  · exact lookup_map_other r k v k2 hne
  · exact lookup_append_other r k v k2 hne

theorem lookup_foldIns_none : ∀ (fs racc : Record) (k : List Nat),
    lastVal fs k = none → lookupRec (foldIns racc fs) k = lookupRec racc k := by
  intro fs
  induction fs with
  | nil => intro racc k _; simp [foldIns]
  | cons f fs ih =>
    intro racc k h
    rw [lastVal_cons] at h
    cases hfs : lastVal fs k with
    | some v => rw [hfs] at h; simp at h
    | none =>
      rw [hfs] at h
      simp only [Option.elim] at h
      have hf : ¬(f.1 = k) := by
        intro hc
        rw [if_pos hc] at h
        exact Option.noConfusion h
      rw [foldIns_cons, ih _ _ hfs, lookup_insert_other racc f.1 f.2 k (fun hc => hf hc.symm)]

theorem lookup_foldIns_some : ∀ (fs racc : Record) (k v : List Nat),
    lastVal fs k = some v → lookupRec (foldIns racc fs) k = some v := by
  intro fs
  induction fs with
  | nil => intro racc k v h; simp [lastVal] at h
  | cons f fs ih =>
    intro racc k v h
    rw [lastVal_cons] at h
    cases hfs : lastVal fs k with
    | some v2 =>
      rw [hfs] at h
      simp only [Option.elim, Option.some.injEq] at h
      rw [foldIns_cons]
      exact ih _ _ _ (by rw [hfs, h])
    | none =>
      rw [hfs] at h
      simp only [Option.elim] at h
      by_cases hf : f.1 = k
      · rw [if_pos hf] at h
        have hv : f.2 = v := Option.some.inj h
        rw [foldIns_cons, lookup_foldIns_none fs _ k hfs, ← hf, ← hv]
        exact lookup_insert_self racc f.1 f.2
      · rw [if_neg hf] at h
        exact absurd h (Option.noConfusion)

/-! ## Wire-shape restatements of the writer -/

theorem intercalate_cons2 (sep x : List Nat) (y : List Nat) (xs : List (List Nat)) :
    List.intercalate sep (x :: y :: xs) = x ++ sep ++ List.intercalate sep (y :: xs) := by
  simp [List.intercalate, List.intersperse, List.append_assoc]

theorem intercalate_single (sep x : List Nat) : List.intercalate sep [x] = x := by
  simp [List.intercalate, List.intersperse]

theorem renderFields_intercalate : ∀ fs : Record,
    renderFields fs = List.intercalate [0x09] (fs.map (fun f => f.1 ++ 0x3a :: f.2)) := by
  intro fs
  induction fs with
  | nil => simp [renderFields, List.intercalate, List.intersperse]
  | cons f fs ih =>
    cases fs with
    | nil => simp [renderFields, intercalate_single]
    | cons g gs =>
      rw [show renderFields (f :: g :: gs) =
        f.1 ++ 0x3a :: f.2 ++ 0x09 :: renderFields (g :: gs) from rfl, ih]
      simp only [List.map_cons]
      rw [intercalate_cons2]
      simp [List.append_assoc]

theorem lfJoin_flatten : ∀ docs : List Record,
    lfJoin docs = (docs.map (fun r => renderFields r ++ [0x0a])).flatten := by
  intro docs
  induction docs with
  | nil => rfl
  | cons r rs ih =>
    rw [show lfJoin (r :: rs) = renderFields r ++ 0x0a :: lfJoin rs from rfl, ih]
    simp [List.append_assoc]

/-! ## Claims -/

theorem skipws_cons_ws {b : Nat} {s : List Nat} (h : isWsByte b = true) :
    skip_whitespaces (b :: s) = skip_whitespaces s := by
  rw [skip_whitespaces, if_pos h]

/-- Claim C1: for every document produced by the parser (every successful
result of `parse_ltsv`), serializing it with `write_ltsv` and parsing the
resulting bytes again yields exactly the same document (literal equality of
the embedded records, which is stronger than equality up to field
iteration order). -/
theorem parse_write_roundtrip : ∀ (input : List Nat) t d docs s1,
    parse_ltsv input = some (.ParseOk t d docs, s1) →
    parse_ltsv (write_ltsv docs) = some (.ParseOk .Ltsv .EOF docs, []) := by
  intro input t d docs s1 h
  rw [parse_ltsv] at h
  obtain ⟨hwf, hne⟩ := parse_ltsv_go_wf _ _ _ _ _ _ _ h (by intro x hx; simp at hx)
  rw [parse_ltsv, write_ltsv_eq]
  rw [parse_ltsv_go_render docs _ [] true hne
    (fun r hr => ⟨(hwf r hr).1, (hwf r hr).2.2⟩) (by omega)]
  rw [List.nil_append, map_foldIns_self docs (fun r hr => (hwf r hr).2.1)]

theorem parse_write_roundtrip_witness :
    parse_ltsv (write_ltsv [[([97], [49])]]) =
      some (.ParseOk .Ltsv .EOF [[([97], [49])]], []) :=
  parse_write_roundtrip [97, 58, 49] .Ltsv .EOF [[([97], [49])]] [] (by decide)

/-- Claim C2, amended: within a single `parse_field` call, after a
TAB-terminated value no whitespace is skipped (the final state is exactly
the state just past the TAB, and only then is end-of-stream re-checked);
however `parse_field` always skips whitespace before scanning a label, so
whitespace standing between a TAB and the next label is still discarded
when the next field is parsed. -/
theorem tab_no_skip_in_parse_field :
    (∀ (s : List Nat) t1 d1 l s1 t2 v s2,
      parse_field_label (skip_whitespaces s) [] = some (.ParseOk t1 d1 l, s1) →
      parse_field_value (bump s1) [] = some (.ParseOk t2 .TAB v, s2) →
      parse_field s =
        some (.ParseOk .Field (if eofP (bump s2) then .EOF else .TAB) (l, v), bump s2)) ∧
    (∀ (b : Nat) (s : List Nat), isWsByte b = true → parse_field (b :: s) = parse_field s) := by
  constructor
  · intro s t1 d1 l s1 t2 v s2 h1 h2
    rw [parse_field, h1]
    simp only []
    rw [h2]
    simp
  · intro b s hb
    rw [parse_field, parse_field, skipws_cons_ws hb]

theorem tab_no_skip_in_parse_field_witness :
    parse_field [97, 58, 49, 0x09, 98, 58, 50] =
      some (.ParseOk .Field (if eofP (bump [0x09, 98, 58, 50]) then .EOF else .TAB) ([97], [49]),
        bump [0x09, 98, 58, 50]) ∧
    parse_field (0x20 :: [97, 58, 49]) = parse_field [97, 58, 49] :=
  ⟨tab_no_skip_in_parse_field.1 [97, 58, 49, 0x09, 98, 58, 50] .FieldLabel .MISC [97]
      [58, 49, 0x09, 98, 58, 50] .FieldValue [49] [0x09, 98, 58, 50] (by decide) (by decide),
    tab_no_skip_in_parse_field.2 0x20 [97, 58, 49] (by decide)⟩

/-- Claim C2, counterexample: on the concrete input `a:1TAB b:2` (a space
after the TAB) parsing succeeds and returns the same document as for
`a:1TABb:2` — the space is discarded before the next label is scanned,
contradicting the claim that bytes between a TAB and the next label are
consumed as-is. -/
theorem tab_whitespace_skipped_cex :
    parse_ltsv [97, 58, 49, 0x09, 0x20, 98, 58, 50] =
      some (.ParseOk .Ltsv .EOF [[([97], [49]), ([98], [50])]], []) ∧
    parse_ltsv [97, 58, 49, 0x09, 98, 58, 50] =
      some (.ParseOk .Ltsv .EOF [[([97], [49]), ([98], [50])]], []) :=
  ⟨by decide, by decide⟩

/-- Claim C3, counterexample: parsing the empty input with the eager mode
does not succeed at all (so in particular it does not yield a document of
zero records). -/
theorem empty_input_not_ok_cex :
    ¬ ∃ t d docs s1, parse_ltsv [] = some (.ParseOk t d docs, s1) := by
  rintro ⟨t, d, docs, s1, h⟩
  rw [show parse_ltsv [] = some (.ParseError "EOF while parsing field label", []) from
    by decide] at h
  simp at h

/-- Claim C3, amended: parsing the empty input (immediate end of stream)
with the eager mode fails with the EOF-while-parsing-field-label error;
`read_ltsv` propagates that failure instead of returning a zero-record
document. -/
theorem empty_input_errors :
    parse_ltsv [] = some (.ParseError "EOF while parsing field label", []) ∧
    read_ltsv [] = some (.error "EOF while parsing field label") :=
  ⟨by decide, rfl⟩

/-- Claim C4, counterexample: the empty input belongs to the wire grammar
(`document := record*` with zero records, `SpecDocument.nil`), yet
`parse_ltsv` returns an error on it — so the parser does not fail exactly
on the grammar-violating inputs. -/
theorem error_not_iff_grammar_cex :
    SpecDocument [] ∧ parse_ltsv [] = some (.ParseError "EOF while parsing field label", []) :=
  ⟨SpecDocument.nil, by decide⟩

/-- Claim C4, amended: whenever the eager mode fails it fails with one of
the four descriptive error messages of the source (covering the five
violation kinds: empty label, EOF mid-label, a disallowed byte in a label
or in a value, and CR without LF), and by construction an error result
carries no partial document. -/
theorem parse_errors_enumerated : ∀ (input : List Nat) r s1,
    parse_ltsv input = some (.ParseError r, s1) →
    r = "label is empty" ∨ r = "EOF while parsing field label" ∨
      r = "invalid byte detected" ∨ r = "CR detected, but not provided with LF" := by
  intro input r s1 h
  rw [parse_ltsv] at h
  exact parse_ltsv_go_err _ _ _ _ _ (by omega) h

theorem parse_errors_enumerated_witness :
    "label is empty" = "label is empty" ∨
      "label is empty" = "EOF while parsing field label" ∨
      "label is empty" = "invalid byte detected" ∨
      "label is empty" = "CR detected, but not provided with LF" :=
  parse_errors_enumerated [0x3a] "label is empty" [0x3a] (by decide)

/-- Claim C5: parsing `a:1 CR LF` succeeds and yields the same document as
parsing `a:1 LF`; parsing `a:1 CR X` (CR followed by a byte other than LF)
fails with the dangling-carriage-return error. -/
theorem crlf_handling :
    parse_ltsv [97, 58, 49, 0x0d, 0x0a] = parse_ltsv [97, 58, 49, 0x0a] ∧
    parse_ltsv [97, 58, 49, 0x0a] = some (.ParseOk .Ltsv .EOF [[([97], [49])]], []) ∧
    parse_ltsv [97, 58, 49, 0x0d, 88] =
      some (.ParseError "CR detected, but not provided with LF", [88]) :=
  ⟨by decide, by decide, by decide⟩

/-- Claim C6: `write_ltsv_record` emits each field as label, colon, value,
with consecutive fields joined by exactly one TAB and no leading or
trailing delimiter (an intercalation), and `write_ltsv` emits each record
via `write_ltsv_record` followed by exactly one LF, including after the
last record. -/
theorem writer_format :
    (∀ r : Record, write_ltsv_record r =
      List.intercalate [0x09] (r.map (fun f => f.1 ++ 0x3a :: f.2))) ∧
    (∀ docs : List Record, write_ltsv docs =
      (docs.map (fun r => write_ltsv_record r ++ [0x0a])).flatten) := by
  constructor
  · intro r
    rw [write_ltsv_record_eq, renderFields_intercalate]
  · intro docs
    rw [write_ltsv, write_ltsv_fold, List.nil_append, lfJoin_flatten]
    have hfn : (fun r : Record => write_ltsv_record r ++ [0x0a]) =
        (fun r : Record => renderFields r ++ [0x0a]) := by
      funext r
      rw [write_ltsv_record_eq]
    rw [hfn]

/-- Claim C7: an input whose last record is not terminated by a newline
(`renderDocs docs false` renders records joined by LF with no trailing
LF) parses successfully; the last record completes at end of stream and
the resulting document contains it. Well-formedness of a record includes
that each value is valid UTF-8, matching the source's `str::from_bytes`
assertion. -/
theorem no_trailing_newline_ok : ∀ docs : List Record,
    (∀ r ∈ docs, WfRecord r) → docs ≠ [] →
    parse_ltsv (renderDocs docs false) = some (.ParseOk .Ltsv .EOF docs, []) := by
  intro docs hwf hne
  rw [parse_ltsv]
  rw [parse_ltsv_go_render docs _ [] false hne
    (fun r hr => ⟨(hwf r hr).1, (hwf r hr).2.2⟩) (by omega)]
  rw [List.nil_append, map_foldIns_self docs (fun r hr => (hwf r hr).2.1)]

theorem no_trailing_newline_ok_witness :
    parse_ltsv (renderDocs [[([97], [49])]] false) =
      some (.ParseOk .Ltsv .EOF [[([97], [49])]], []) :=
  no_trailing_newline_ok [[([97], [49])]] (by decide) (by decide)

/-- Claim C8: within one parsed line, labels are unique keys: parsing a
rendered line of well-formed fields `fs` (charset-valid, UTF-8-valid
values, per the source's `str::from_bytes` assertion) produces the record
built by inserting each field in order, and looking any label up in that
record yields the value of the last field of the line carrying that label
(a later duplicate overwrites the earlier value). -/
theorem duplicate_label_overwrites : ∀ (fs : Record) (k : List Nat),
    fs ≠ [] → WfFields fs →
    parse_record (renderFields fs ++ [0x0a]) =
      some (.ParseOk .Record .EOF (foldIns [] fs), []) ∧
    lookupRec (foldIns [] fs) k = lastVal fs k := by
  intro fs k hne hwf
  constructor
  · rw [parse_record,
      parse_record_go_render_nl fs _ [] [] hne hwf (Or.inl rfl) (by omega)]
    simp
  · cases hl : lastVal fs k with
    | some v => exact lookup_foldIns_some fs [] k v hl
    | none => rw [lookup_foldIns_none fs [] k hl]; rfl

theorem duplicate_label_overwrites_witness :
    parse_record (renderFields [([97], [49]), ([97], [50])] ++ [0x0a]) =
      some (.ParseOk .Record .EOF (foldIns [] [([97], [49]), ([97], [50])]), []) ∧
    lookupRec (foldIns [] [([97], [49]), ([97], [50])]) [97] =
      lastVal [([97], [49]), ([97], [50])] [97] :=
  duplicate_label_overwrites [([97], [49]), ([97], [50])] [97] (by decide) (by decide)

/-- Claim C9, counterexample: the byte 0xFF is an allowed value byte, yet
the value region `[0xFF]` is not valid UTF-8, so the source's
`str::from_bytes` assertion aborts the parse (modeled as `none`) instead
of returning the bytes: values are not preserved for arbitrary allowed
byte content. -/
theorem value_not_preserved_cex :
    isValueByteN 0xff = true ∧ is_utf8 [0xff] = false ∧
    parse_field_value (0xff :: 0x0a :: []) [] = none ∧
    parse_ltsv [97, 58, 0xff, 0x0a] = none := by
  decide

/-- Claim C9, amended: for every value region consisting only of allowed
value bytes (0x01-0x08, 0x0B, 0x0C, 0x0E-0xFF) that additionally forms a
valid UTF-8 byte sequence (the source's `str::from_bytes` asserts
`str::is_utf8` and aborts otherwise), `parse_field_value` returns exactly
those bytes, unchanged, for each of the four terminators (TAB, LF, CR-LF,
end of stream) — multi-byte UTF-8 payloads pass through untouched. -/
theorem value_preserved : ∀ (v rest : List Nat), wfValue v →
    parse_field_value (v ++ 0x09 :: rest) [] =
      some (.ParseOk .FieldValue .TAB v, 0x09 :: rest) ∧
    parse_field_value (v ++ 0x0a :: rest) [] =
      some (.ParseOk .FieldValue .NL v, 0x0a :: rest) ∧
    parse_field_value (v ++ 0x0d :: 0x0a :: rest) [] =
      some (.ParseOk .FieldValue .NL v, 0x0a :: rest) ∧
    parse_field_value v [] = some (.ParseOk .FieldValue .EOF v, []) := by
  intro v rest hv
  refine ⟨?_, ?_, ?_, ?_⟩
  · rw [parse_field_value_app v _ [] hv.1, List.nil_append,
      parse_field_value_tab _ v hv.2]
  · rw [parse_field_value_app v _ [] hv.1, List.nil_append,
      parse_field_value_lf _ v hv.2]
  · rw [parse_field_value_app v _ [] hv.1, List.nil_append,
      parse_field_value_crlf _ v hv.2]
  · conv_lhs => rw [← List.append_nil v]
    rw [parse_field_value_app v [] [] hv.1, List.nil_append,
      parse_field_value_nil v hv.2]

theorem value_preserved_witness :
    parse_field_value ([0xe8, 0xb1, 0x86] ++ 0x09 :: [98]) [] =
      some (.ParseOk .FieldValue .TAB [0xe8, 0xb1, 0x86], 0x09 :: [98]) ∧
    parse_field_value ([0xe8, 0xb1, 0x86] ++ 0x0a :: [98]) [] =
      some (.ParseOk .FieldValue .NL [0xe8, 0xb1, 0x86], 0x0a :: [98]) ∧
    parse_field_value ([0xe8, 0xb1, 0x86] ++ 0x0d :: 0x0a :: [98]) [] =
      some (.ParseOk .FieldValue .NL [0xe8, 0xb1, 0x86], 0x0a :: [98]) ∧
    parse_field_value [0xe8, 0xb1, 0x86] [] =
      some (.ParseOk .FieldValue .EOF [0xe8, 0xb1, 0x86], []) :=
  value_preserved [0xe8, 0xb1, 0x86] [98] (by decide)

/-- Claim C10: on the empty input the lazy modes `each_ltsv_record` and
`each_ltsv_field` invoke their visitor zero times (the visited list is
empty) and return without error, because the end-of-stream check precedes
any parse attempt — while the eager mode attempts a parse and fails. -/
theorem lazy_empty_input_ok :
    ∀ (f : Record → Bool) (g : List Nat × List Nat → Bool),
    each_ltsv_record f [] = some (.ok []) ∧ each_ltsv_field g [] = some (.ok []) ∧
    parse_ltsv [] = some (.ParseError "EOF while parsing field label", []) := by
  intro f g
  exact ⟨rfl, rfl, by decide⟩

end Ltsv
